import Mathlib

/-!
Verification of the scheduling / memory-management core of the
`os-practice` multiprogramming simulator
(`src/os_practice/multiprogramming_simulator.py`).

The Python classes `MemoryManager` and `CPUScheduler` are embedded
shallowly: the `allocated_memory` dict becomes an association list with
dict semantics (update-in-place on an existing key, append on a fresh
key, delete removes the key), Python `int` becomes `Int`, the mutable
PCB objects shared between `ready_queue`, `current_process` and
`processes` become references (indices) into an explicit store, and the
FIFO `Queue` becomes a list with enqueue at the tail and dequeue at the
head.
-/

namespace OsPractice

/-- `ProcessState` enum from the source (NEW/READY/RUNNING/WAITING/TERMINATED). -/
inductive ProcessState where
  | NEW
  | READY
  | RUNNING
  | WAITING
  | TERMINATED
deriving DecidableEq

/-- The `Process` dataclass (PCB) from the source. -/
structure Process where
  pid : Int
  name : String
  priority : Int
  memory_required : Int
  cpu_burst : Int
  state : ProcessState
  remaining_time : Int
  memory_allocated : Bool
deriving DecidableEq

/-- Lookup in a Python-dict-like association list (first matching key). -/
def lookupA : List (Int × Int) → Int → Option Int
  | [], _ => none
  | (k, v) :: rest, pid => if k = pid then some v else lookupA rest pid

/-- `d[pid] = size` on a Python dict: overwrite the existing key in place,
otherwise append a fresh key at the end (insertion order preserved). -/
def insertA : List (Int × Int) → Int → Int → List (Int × Int)
  | [], pid, size => [(pid, size)]
  | (k, v) :: rest, pid, size =>
      if k = pid then (pid, size) :: rest else (k, v) :: insertA rest pid size

/-- `del d[pid]` on a Python dict: remove the (unique) matching key. -/
def eraseA : List (Int × Int) → Int → List (Int × Int)
  | [], _ => []
  | (k, v) :: rest, pid => if k = pid then rest else (k, v) :: eraseA rest pid

/-- The `MemoryManager` class: `total_memory`, `available_memory`, and the
`allocated_memory` dict mapping pid to size. -/
structure MemoryManager where
  total_memory : Int
  available_memory : Int
  allocated_memory : List (Int × Int)
deriving DecidableEq

/-- `MemoryManager.__init__(total_memory)`. -/
def MemoryManager.init (total : Int) : MemoryManager :=
  ⟨total, total, []⟩

/-- `MemoryManager.allocate(pid, size)`: succeeds iff
`available_memory >= size`, in which case it subtracts `size` from
`available_memory` and writes `allocated_memory[pid] = size`. -/
def MemoryManager.allocate (m : MemoryManager) (pid size : Int) :
    MemoryManager × Bool :=
  if size ≤ m.available_memory then
    ({ m with
        available_memory := m.available_memory - size,
        allocated_memory := insertA m.allocated_memory pid size }, true)
  else (m, false)

/-- `MemoryManager.deallocate(pid)`: if `pid in allocated_memory`, add its
size back to `available_memory` and delete the entry; otherwise no-op. -/
def MemoryManager.deallocate (m : MemoryManager) (pid : Int) : MemoryManager :=
  match lookupA m.allocated_memory pid with
  | some sz =>
      { m with
        available_memory := m.available_memory + sz,
        allocated_memory := eraseA m.allocated_memory pid }
  | none => m

/-- `sum(allocated_memory.values())`. -/
def sumAlloc (m : MemoryManager) : Int :=
  (m.allocated_memory.map Prod.snd).sum

/-- One externally invokable mutation of a `MemoryManager`. -/
inductive MemStep : MemoryManager → MemoryManager → Prop where
  | alloc : ∀ (m : MemoryManager) (pid size : Int),
      MemStep m (m.allocate pid size).1
  | dealloc : ∀ (m : MemoryManager) (pid : Int),
      MemStep m (m.deallocate pid)

/-- States reachable from `MemoryManager.init total` by any sequence of
`allocate` / `deallocate` calls. -/
def MemReachable (total : Int) (m : MemoryManager) : Prop :=
  Relation.ReflTransGen MemStep (MemoryManager.init total) m

/-- Mutation steps in which every `allocate` is called with a nonnegative
size (`deallocate` unrestricted). -/
inductive MemStepNN : MemoryManager → MemoryManager → Prop where
  | alloc : ∀ (m : MemoryManager) (pid size : Int), 0 ≤ size →
      MemStepNN m (m.allocate pid size).1
  | dealloc : ∀ (m : MemoryManager) (pid : Int),
      MemStepNN m (m.deallocate pid)

/-- Reachability under nonnegative allocation sizes. -/
def MemReachableNN (total : Int) (m : MemoryManager) : Prop :=
  Relation.ReflTransGen MemStepNN (MemoryManager.init total) m

/-- Mutation steps in which `allocate` is only ever called for a pid that
holds no current allocation (`deallocate` unrestricted). -/
inductive MemStepFresh : MemoryManager → MemoryManager → Prop where
  | alloc : ∀ (m : MemoryManager) (pid size : Int),
      lookupA m.allocated_memory pid = none →
      MemStepFresh m (m.allocate pid size).1
  | dealloc : ∀ (m : MemoryManager) (pid : Int),
      MemStepFresh m (m.deallocate pid)

/-- Reachability under fresh-pid-only allocation. -/
def MemReachableFresh (total : Int) (m : MemoryManager) : Prop :=
  Relation.ReflTransGen MemStepFresh (MemoryManager.init total) m

/-! ### Association-list lemmas -/

lemma lookupA_insertA_self (m : List (Int × Int)) (pid size : Int) :
    lookupA (insertA m pid size) pid = some size := by
  induction m with
  | nil => simp [insertA, lookupA]
  | cons hd tl ih =>
      obtain ⟨k, v⟩ := hd
      by_cases h : k = pid
      · simp [insertA, lookupA, h]
      · simp [insertA, lookupA, h, ih]

lemma lookupA_insertA_ne (m : List (Int × Int)) (pid size q : Int)
    (hq : q ≠ pid) :
    lookupA (insertA m pid size) q = lookupA m q := by
  have hq2 : pid ≠ q := Ne.symm hq
  induction m with
  | nil => simp [insertA, lookupA, hq2]
  | cons hd tl ih =>
      obtain ⟨k, v⟩ := hd
      by_cases h : k = pid
      · subst h
        simp [insertA, lookupA, hq2]
      · by_cases h2 : k = q
        · subst h2
          simp [insertA, lookupA, h]
        · simp [insertA, lookupA, h, h2, ih]

lemma lookupA_eraseA_ne (m : List (Int × Int)) (pid q : Int)
    (hq : q ≠ pid) :
    lookupA (eraseA m pid) q = lookupA m q := by
  have hq2 : pid ≠ q := Ne.symm hq
  induction m with
  | nil => simp [eraseA]
  | cons hd tl ih =>
      obtain ⟨k, v⟩ := hd
      by_cases h : k = pid
      · subst h
        simp [eraseA, lookupA, hq2]
      · by_cases h2 : k = q
        · subst h2
          simp [eraseA, lookupA, h]
        · simp [eraseA, lookupA, h, h2, ih]

lemma sum_insertA (m : List (Int × Int)) (pid size : Int) :
    ((insertA m pid size).map Prod.snd).sum
      = (m.map Prod.snd).sum + size - (lookupA m pid).getD 0 := by
  induction m with
  | nil => simp [insertA, lookupA]
  | cons hd tl ih =>
      obtain ⟨k, v⟩ := hd
      by_cases h : k = pid
      · simp only [insertA, lookupA, if_pos h]
        simp
        all_goals omega
      · simp only [insertA, lookupA, if_neg h]
        simp [ih]
        all_goals omega

lemma sum_eraseA (m : List (Int × Int)) (pid : Int) :
    ((eraseA m pid).map Prod.snd).sum
      = (m.map Prod.snd).sum - (lookupA m pid).getD 0 := by
  induction m with
  | nil => simp [eraseA, lookupA]
  | cons hd tl ih =>
      obtain ⟨k, v⟩ := hd
      by_cases h : k = pid
      · simp only [eraseA, lookupA, if_pos h]
        simp
      · simp only [eraseA, lookupA, if_neg h]
        simp [ih]
        all_goals omega

lemma mem_insertA {m : List (Int × Int)} {pid size : Int} {x : Int × Int} :
    x ∈ insertA m pid size → x = (pid, size) ∨ x ∈ m := by
  induction m with
  | nil =>
      intro hx
      simpa [insertA] using hx
  | cons hd tl ih =>
      obtain ⟨k, v⟩ := hd
      intro hx
      by_cases h : k = pid
      · simp only [insertA, if_pos h, List.mem_cons] at hx
        rcases hx with hx | hx
        · exact Or.inl hx
        · exact Or.inr (List.mem_cons_of_mem _ hx)
      · simp only [insertA, if_neg h, List.mem_cons] at hx
        rcases hx with hx | hx
        · exact Or.inr (by simp [hx])
        · rcases ih hx with h1 | h1
          · exact Or.inl h1
          · exact Or.inr (List.mem_cons_of_mem _ h1)

lemma mem_eraseA {m : List (Int × Int)} {pid : Int} {x : Int × Int} :
    x ∈ eraseA m pid → x ∈ m := by
  induction m with
  | nil =>
      intro hx
      simp [eraseA] at hx
  | cons hd tl ih =>
      obtain ⟨k, v⟩ := hd
      intro hx
      by_cases h : k = pid
      · simp only [eraseA, if_pos h] at hx
        exact List.mem_cons_of_mem _ hx
      · simp only [eraseA, if_neg h, List.mem_cons] at hx
        rcases hx with hx | hx
        · simp [hx]
        · exact List.mem_cons_of_mem _ (ih hx)

lemma lookupA_mem {m : List (Int × Int)} {pid v : Int}
    (h : lookupA m pid = some v) : (pid, v) ∈ m := by
  induction m with
  | nil => simp [lookupA] at h
  | cons hd tl ih =>
      obtain ⟨k, w⟩ := hd
      by_cases hk : k = pid
      · subst hk
        simp [lookupA] at h
        simp [h]
      · simp only [lookupA, if_neg hk] at h
        exact List.mem_cons_of_mem _ (ih h)

lemma lookupA_eq_none_iff (m : List (Int × Int)) (pid : Int) :
    lookupA m pid = none ↔ pid ∉ m.map Prod.fst := by
  induction m with
  | nil => simp [lookupA]
  | cons hd tl ih =>
      obtain ⟨k, v⟩ := hd
      by_cases h : k = pid
      · subst h
        simp [lookupA]
      · simp [lookupA, h, ih, Ne.symm h]

lemma keys_eraseA_sublist (m : List (Int × Int)) (pid : Int) :
    ((eraseA m pid).map Prod.fst).Sublist (m.map Prod.fst) := by
  induction m with
  | nil => simp [eraseA]
  | cons hd tl ih =>
      obtain ⟨k, v⟩ := hd
      by_cases h : k = pid
      · simp only [eraseA, if_pos h]
        exact List.Sublist.cons k (List.Sublist.refl _)
      · simp only [eraseA, if_neg h, List.map_cons]
        exact ih.cons₂ k

lemma keys_insertA (m : List (Int × Int)) (pid size : Int) :
    (insertA m pid size).map Prod.fst
      = if lookupA m pid = none then m.map Prod.fst ++ [pid]
        else m.map Prod.fst := by
  induction m with
  | nil => simp [insertA, lookupA]
  | cons hd tl ih =>
      obtain ⟨k, v⟩ := hd
      by_cases h : k = pid
      · subst h
        simp [insertA, lookupA]
      · simp only [insertA, if_neg h, List.map_cons, lookupA, ih]
        by_cases h2 : lookupA tl pid = none
        · simp [h2, h]
        · simp [h2, h]

/-- Keys of the allocation dict are pairwise distinct (a Python-dict
invariant). -/
def NodupKeys (m : List (Int × Int)) : Prop :=
  (m.map Prod.fst).Nodup

lemma nodupKeys_insertA {m : List (Int × Int)} (pid size : Int)
    (h : NodupKeys m) : NodupKeys (insertA m pid size) := by
  unfold NodupKeys at *
  rw [keys_insertA]
  by_cases h2 : lookupA m pid = none
  · simp only [if_pos h2]
    have hpid : pid ∉ m.map Prod.fst := (lookupA_eq_none_iff m pid).1 h2
    rw [List.nodup_append]
    refine ⟨h, List.nodup_singleton pid, ?_⟩
    intro a ha hb
    simp only [List.mem_singleton] at hb
    subst hb
    exact hpid ha
  · simpa [if_neg h2] using h

lemma nodupKeys_eraseA {m : List (Int × Int)} (pid : Int)
    (h : NodupKeys m) : NodupKeys (eraseA m pid) :=
  (keys_eraseA_sublist m pid).nodup h

lemma lookupA_eraseA_self {m : List (Int × Int)} {pid : Int}
    (h : NodupKeys m) : lookupA (eraseA m pid) pid = none := by
  induction m with
  | nil => simp [eraseA, lookupA]
  | cons hd tl ih =>
      obtain ⟨k, v⟩ := hd
      unfold NodupKeys at h
      simp only [List.map_cons, List.nodup_cons] at h
      by_cases hk : k = pid
      · subst hk
        simp only [eraseA, if_pos rfl]
        exact (lookupA_eq_none_iff tl k).2 h.1
      · simp only [eraseA, if_neg hk, lookupA, if_neg hk]
        exact ih h.2

/-! ### MemoryManager invariants -/

/-- Accounting invariant maintained by the pool under nonnegative
allocation sizes: nonnegative headroom, headroom plus booked sum bounded
by the capacity, and nonnegative booked entries. -/
structure MemInvNN (total : Int) (m : MemoryManager) : Prop where
  total_eq : m.total_memory = total
  avail_nonneg : 0 ≤ m.available_memory
  avail_sum : m.available_memory + sumAlloc m ≤ total
  vals_nonneg : ∀ x ∈ m.allocated_memory, 0 ≤ x.2

lemma memInvNN_step {total : Int} {m m' : MemoryManager}
    (hstep : MemStepNN m m') (h : MemInvNN total m) : MemInvNN total m' := by
  cases hstep with
  | alloc pid size hsize =>
      by_cases hle : size ≤ m.available_memory
      · have hold : 0 ≤ (lookupA m.allocated_memory pid).getD 0 := by
          cases hv : lookupA m.allocated_memory pid with
          | none => simp
          | some v => simpa using h.vals_nonneg _ (lookupA_mem hv)
        have hsum := h.avail_sum
        refine ⟨?_, ?_, ?_, ?_⟩
        · simpa [MemoryManager.allocate, hle] using h.total_eq
        · simp only [MemoryManager.allocate, if_pos hle]
          omega
        · simp only [MemoryManager.allocate, if_pos hle, sumAlloc,
            sum_insertA]
          simp only [sumAlloc] at hsum
          omega
        · intro x hx
          simp only [MemoryManager.allocate, if_pos hle] at hx
          rcases mem_insertA hx with hx | hx
          · subst hx
            exact hsize
          · exact h.vals_nonneg _ hx
      · have heq : (m.allocate pid size).1 = m := by
          simp [MemoryManager.allocate, hle]
        rw [heq]
        exact h
  | dealloc pid =>
      cases hv : lookupA m.allocated_memory pid with
      | none => simpa [MemoryManager.deallocate, hv] using h
      | some v =>
          have hvpos : 0 ≤ v := by
            simpa using h.vals_nonneg _ (lookupA_mem hv)
          have hsum := h.avail_sum
          have hav := h.avail_nonneg
          refine ⟨?_, ?_, ?_, ?_⟩
          · simpa [MemoryManager.deallocate, hv] using h.total_eq
          · simp only [MemoryManager.deallocate, hv]
            omega
          · simp only [MemoryManager.deallocate, hv, sumAlloc, sum_eraseA]
            simp only [sumAlloc] at hsum
            simp only [hv, Option.getD_some]
            omega
          · intro x hx
            simp only [MemoryManager.deallocate, hv] at hx
            exact h.vals_nonneg _ (mem_eraseA hx)

lemma nodupKeys_step {m m' : MemoryManager} (hstep : MemStep m m')
    (h : NodupKeys m.allocated_memory) : NodupKeys m'.allocated_memory := by
  cases hstep with
  | alloc pid size =>
      by_cases hle : size ≤ m.available_memory
      · simpa [MemoryManager.allocate, hle] using
          nodupKeys_insertA pid size h
      · simpa [MemoryManager.allocate, hle] using h
  | dealloc pid =>
      cases hv : lookupA m.allocated_memory pid with
      | none => simpa [MemoryManager.deallocate, hv] using h
      | some v =>
          simpa [MemoryManager.deallocate, hv] using
            nodupKeys_eraseA pid h

lemma nodupKeys_reachable {total : Int} {m : MemoryManager}
    (h : MemReachable total m) : NodupKeys m.allocated_memory := by
  induction h with
  | refl => simp [MemoryManager.init, NodupKeys]
  | tail hab hstep ih => exact nodupKeys_step hstep ih

lemma memInvFresh_step {total : Int} {m m' : MemoryManager}
    (hstep : MemStepFresh m m')
    (h : m.available_memory = m.total_memory - sumAlloc m
       ∧ m.total_memory = total) :
    m'.available_memory = m'.total_memory - sumAlloc m'
  ∧ m'.total_memory = total := by
  cases hstep with
  | alloc pid size hfresh =>
      by_cases hle : size ≤ m.available_memory
      · constructor
        · simp only [MemoryManager.allocate, if_pos hle, sumAlloc,
            sum_insertA, hfresh, Option.getD_none]
          have h1 := h.1
          simp only [sumAlloc] at h1
          omega
        · simpa [MemoryManager.allocate, hle] using h.2
      · have heq : (m.allocate pid size).1 = m := by
          simp [MemoryManager.allocate, hle]
        rw [heq]
        exact h
  | dealloc pid =>
      cases hv : lookupA m.allocated_memory pid with
      | none => simpa [MemoryManager.deallocate, hv] using h
      | some v =>
          constructor
          · simp only [MemoryManager.deallocate, hv, sumAlloc, sum_eraseA]
            have h1 := h.1
            simp only [sumAlloc] at h1
            simp only [hv, Option.getD_some]
            omega
          · simpa [MemoryManager.deallocate, hv] using h.2

/-! ### Claim C3: the pool never over-books its capacity -/

/-- A reachable state of the pool in which the booked sum (1050) exceeds
the capacity (100): allocate a negative size for pid 1, allocate 1050 for
pid 2 out of the inflated headroom, then deallocate pid 1. -/
def cexC3 : MemoryManager :=
  ((((MemoryManager.init 100).allocate 1 (-1000)).1.allocate 2 1050).1).deallocate 1

/-- Counterexample to C3 as stated: with capacity 100 and unrestricted
`allocate`/`deallocate` calls, a state is reachable whose allocation map
sums to 1050 > 100 (negative allocation sizes inflate the headroom). -/
theorem cexC3_sum_exceeds_total :
    MemReachable 100 cexC3
  ∧ cexC3.total_memory = 100
  ∧ sumAlloc cexC3 = 1050
  ∧ ¬ sumAlloc cexC3 ≤ cexC3.total_memory := by
  refine ⟨?_, by decide, by decide, by decide⟩
  exact Relation.ReflTransGen.tail
    (Relation.ReflTransGen.tail
      (Relation.ReflTransGen.tail Relation.ReflTransGen.refl
        (MemStep.alloc _ 1 (-1000)))
      (MemStep.alloc _ 2 1050))
    (MemStep.dealloc _ 1)

/-- C3 (amended): for every MemoryManager state reachable from
construction with a nonnegative capacity by any sequence of `allocate`
and `deallocate` calls in which every `allocate` size is nonnegative,
the sum of the values of `allocated_memory` never exceeds
`total_memory`. -/
theorem sumAlloc_le_total (total : Int) (m : MemoryManager)
    (htotal : 0 ≤ total) (h : MemReachableNN total m) :
    sumAlloc m ≤ m.total_memory := by
  have hinv : MemInvNN total m := by
    induction h with
    | refl =>
        exact ⟨rfl, htotal, by simp [MemoryManager.init, sumAlloc],
          by simp [MemoryManager.init]⟩
    | tail hab hstep ih => exact memInvNN_step hstep ih
  have h1 := hinv.avail_sum
  have h2 := hinv.avail_nonneg
  rw [hinv.total_eq]
  omega

/-- Witness for C3 (amended) at capacity 100 after allocating 60 for
pid 1: the booked sum 60 stays below the capacity 100. -/
theorem sumAlloc_le_total_witness :
    sumAlloc ((MemoryManager.init 100).allocate 1 60).1
      ≤ ((MemoryManager.init 100).allocate 1 60).1.total_memory :=
  sumAlloc_le_total 100 ((MemoryManager.init 100).allocate 1 60).1
    (by decide)
    (Relation.ReflTransGen.tail Relation.ReflTransGen.refl
      (MemStepNN.alloc _ 1 60 (by decide)))

/-! ### Claim C4: allocate fails cleanly or reserves exactly -/

/-- C4: `allocate(pid, size)` returns false and leaves the pool unchanged
when `size` exceeds the available capacity, and otherwise returns true,
records exactly `size` units against `pid`, and subtracts `size` from the
available capacity; concretely, from capacity 100: allocate(1,60) → true
with 40 available, then allocate(2,50) → false with 40 available, then
deallocate(1) → 100 available. -/
theorem allocate_spec (m : MemoryManager) (pid size : Int) :
    (m.available_memory < size → m.allocate pid size = (m, false))
  ∧ (size ≤ m.available_memory →
      (m.allocate pid size).2 = true
    ∧ (m.allocate pid size).1.available_memory
        = m.available_memory - size
    ∧ lookupA (m.allocate pid size).1.allocated_memory pid = some size)
  ∧ ((MemoryManager.init 100).allocate 1 60).2 = true
  ∧ ((MemoryManager.init 100).allocate 1 60).1.available_memory = 40
  ∧ (((MemoryManager.init 100).allocate 1 60).1.allocate 2 50).2 = false
  ∧ (((MemoryManager.init 100).allocate 1 60).1.allocate 2 50).1.available_memory = 40
  ∧ ((((MemoryManager.init 100).allocate 1 60).1.allocate 2 50).1.deallocate 1).available_memory = 100 := by
  refine ⟨?_, ?_, by decide, by decide, by decide, by decide, by decide⟩
  · intro hlt
    have hle : ¬ size ≤ m.available_memory := by omega
    simp [MemoryManager.allocate, hle]
  · intro hle
    refine ⟨?_, ?_, ?_⟩
    · simp [MemoryManager.allocate, hle]
    · simp [MemoryManager.allocate, hle]
    · simp [MemoryManager.allocate, hle, lookupA_insertA_self]

/-- Witness for C4 exercising both branches: from capacity 100,
allocate(1,200) fails leaving the pool unchanged, and allocate(1,60)
returns true. -/
theorem allocate_spec_witness :
    (MemoryManager.init 100).allocate 1 200 = (MemoryManager.init 100, false)
  ∧ ((MemoryManager.init 100).allocate 1 60).2 = true :=
  ⟨(allocate_spec (MemoryManager.init 100) 1 200).1 (by decide),
   ((allocate_spec (MemoryManager.init 100) 1 60).2.1 (by decide)).1⟩

/-! ### Claim C5: reported headroom versus the allocation map -/

/-- A reachable state refuting C5 as stated: allocating for pid 1 twice
(60 then 10) leaves `available_memory = 30` while the map accounts for
`100 - 10 = 90` (the overwritten 60 is never credited back). -/
def cexC5 : MemoryManager :=
  (((MemoryManager.init 100).allocate 1 60).1.allocate 1 10).1

/-- Counterexample to C5 as stated: after allocate(1,60) then
allocate(1,10) from capacity 100, `available_memory` is 30 but
`total_memory - sum(allocated_memory.values())` is 90. -/
theorem cexC5_available_ne :
    MemReachable 100 cexC5
  ∧ cexC5.available_memory = 30
  ∧ cexC5.total_memory - sumAlloc cexC5 = 90
  ∧ cexC5.available_memory ≠ cexC5.total_memory - sumAlloc cexC5 := by
  refine ⟨?_, by decide, by decide, by decide⟩
  exact Relation.ReflTransGen.tail
    (Relation.ReflTransGen.tail Relation.ReflTransGen.refl
      (MemStep.alloc _ 1 60))
    (MemStep.alloc _ 1 10)

/-- C5 (amended): in every state reachable by `allocate`/`deallocate`
sequences in which `allocate` is only ever invoked for a pid holding no
current allocation, `available_memory` equals
`total_memory - sum(allocated_memory.values())`. -/
theorem available_eq_total_sub_sum (total : Int) (m : MemoryManager)
    (h : MemReachableFresh total m) :
    m.available_memory = m.total_memory - sumAlloc m := by
  have hinv : m.available_memory = m.total_memory - sumAlloc m
      ∧ m.total_memory = total := by
    induction h with
    | refl => exact ⟨by simp [MemoryManager.init, sumAlloc], rfl⟩
    | tail hab hstep ih => exact memInvFresh_step hstep ih
  exact hinv.1

/-- Witness for C5 (amended): capacity 100, fresh allocations of 60 for
pid 1 and 30 for pid 2 leave 10 available, which is 100 - 90. -/
theorem available_eq_total_sub_sum_witness :
    (((MemoryManager.init 100).allocate 1 60).1.allocate 2 30).1.available_memory
      = (((MemoryManager.init 100).allocate 1 60).1.allocate 2 30).1.total_memory
        - sumAlloc (((MemoryManager.init 100).allocate 1 60).1.allocate 2 30).1 :=
  available_eq_total_sub_sum 100 _
    (Relation.ReflTransGen.tail
      (Relation.ReflTransGen.tail Relation.ReflTransGen.refl
        (MemStepFresh.alloc _ 1 60 (by decide)))
      (MemStepFresh.alloc _ 2 30 (by decide)))

/-! ### Claim C6: deallocate is idempotent -/

/-- C6: on every reachable pool state, deallocating the same pid twice
equals deallocating it once, and deallocating a pid with no current
allocation leaves the pool unchanged (no error is possible: the
operation is total). -/
theorem deallocate_idempotent (total : Int) (m : MemoryManager) (pid : Int)
    (h : MemReachable total m) :
    (m.deallocate pid).deallocate pid = m.deallocate pid
  ∧ (lookupA m.allocated_memory pid = none → m.deallocate pid = m) := by
  have hnd := nodupKeys_reachable h
  constructor
  · cases hv : lookupA m.allocated_memory pid with
    | none => simp [MemoryManager.deallocate, hv]
    | some v =>
        have h2 : lookupA (eraseA m.allocated_memory pid) pid = none :=
          lookupA_eraseA_self hnd
        simp [MemoryManager.deallocate, hv, h2]
  · intro h0
    simp [MemoryManager.deallocate, h0]

/-- Witness for C6: after allocating 60 for pid 1 from capacity 100,
deallocating pid 1 twice equals deallocating once, and deallocating the
absent pid 2 is a no-op. -/
theorem deallocate_idempotent_witness :
    ((((MemoryManager.init 100).allocate 1 60).1.deallocate 1).deallocate 1
      = ((MemoryManager.init 100).allocate 1 60).1.deallocate 1)
  ∧ ((MemoryManager.init 100).allocate 1 60).1.deallocate 2
      = ((MemoryManager.init 100).allocate 1 60).1 := by
  have hreach : MemReachable 100 ((MemoryManager.init 100).allocate 1 60).1 :=
    Relation.ReflTransGen.tail Relation.ReflTransGen.refl
      (MemStep.alloc _ 1 60)
  exact ⟨(deallocate_idempotent 100 _ 1 hreach).1,
         (deallocate_idempotent 100 _ 2 hreach).2 (by decide)⟩

/-! ### Claim C10: frame properties of allocate and deallocate -/

/-- C10: `allocate(p, size)` and `deallocate(p)` leave the allocation-map
entry of every pid `q ≠ p` unchanged, and neither operation changes
`total_memory`. -/
theorem alloc_dealloc_frame (m : MemoryManager) (pid size q : Int)
    (hq : q ≠ pid) :
    lookupA (m.allocate pid size).1.allocated_memory q
      = lookupA m.allocated_memory q
  ∧ lookupA (m.deallocate pid).allocated_memory q
      = lookupA m.allocated_memory q
  ∧ (m.allocate pid size).1.total_memory = m.total_memory
  ∧ (m.deallocate pid).total_memory = m.total_memory := by
  refine ⟨?_, ?_, ?_, ?_⟩
  · by_cases hle : size ≤ m.available_memory
    · simp [MemoryManager.allocate, hle, lookupA_insertA_ne _ _ _ _ hq]
    · simp [MemoryManager.allocate, hle]
  · cases hv : lookupA m.allocated_memory pid with
    | none => simp [MemoryManager.deallocate, hv]
    | some v => simp [MemoryManager.deallocate, hv,
        lookupA_eraseA_ne _ _ _ hq]
  · by_cases hle : size ≤ m.available_memory <;>
      simp [MemoryManager.allocate, hle]
  · cases hv : lookupA m.allocated_memory pid with
    | none => simp [MemoryManager.deallocate, hv]
    | some v => simp [MemoryManager.deallocate, hv]

/-- Witness for C10 at a concrete pool: pid 2's entry survives
allocate(1,60) and deallocate(1) on a pool where pid 2 holds 30. -/
theorem alloc_dealloc_frame_witness :
    lookupA ((((MemoryManager.init 100).allocate 2 30).1.allocate 1 60).1).allocated_memory 2
      = lookupA (((MemoryManager.init 100).allocate 2 30).1).allocated_memory 2
  ∧ lookupA ((((MemoryManager.init 100).allocate 2 30).1.deallocate 1)).allocated_memory 2
      = lookupA (((MemoryManager.init 100).allocate 2 30).1).allocated_memory 2 :=
  ⟨(alloc_dealloc_frame ((MemoryManager.init 100).allocate 2 30).1 1 60 2
      (by decide)).1,
   (alloc_dealloc_frame ((MemoryManager.init 100).allocate 2 30).1 1 60 2
      (by decide)).2.1⟩

/-! ### CPUScheduler embedding

The scheduler's `ready_queue`, `current_process` and `processes` all hold
references to the same mutable PCB objects, so the embedding keeps a
store of PCBs (`store`) and lets the queue, the current slot and the
process list hold indices into it.  Enqueue appends at the tail, dequeue
takes the head (the FIFO `Queue`). -/

/-- State of a `CPUScheduler` instance: a store of PCB objects plus the
class attributes `ready_queue`, `time_quantum`, `current_process` and
`processes`, the latter three holding references into the store. -/
structure SchedState where
  store : List Process
  ready_queue : List Nat
  time_quantum : Int
  current : Option Nat
  processes : List Nat
deriving DecidableEq

/-- `CPUScheduler.__init__(time_quantum)`. -/
def initSched (tq : Int) : SchedState :=
  ⟨[], [], tq, none, []⟩

/-- Update the PCB object at reference `r` in the store. -/
def updStore : List Process → Nat → (Process → Process) → List Process
  | [], _, _ => []
  | p :: ps, 0, f => f p :: ps
  | p :: ps, Nat.succ n, f => p :: updStore ps n f

/-- Mutate `obj.state = st` on the PCB at reference `r`. -/
def setStateAt (l : List Process) (r : Nat) (st : ProcessState) :
    List Process :=
  updStore l r (fun p => { p with state := st })

/-- `CPUScheduler.add_process(process)`: append to `processes`, put on the
ready queue, set the state to READY.  There is no membership check. -/
def addProcess (s : SchedState) (r : Nat) : SchedState :=
  { s with
    processes := s.processes ++ [r],
    ready_queue := s.ready_queue ++ [r],
    store := setStateAt s.store r ProcessState.READY }

/-- Calling `add_process` on a PCB object not yet in the store: the fresh
object is appended to the store and its reference is added. -/
def addNewProcess (s : SchedState) (p : Process) : SchedState :=
  addProcess { s with store := s.store ++ [p] } s.store.length

/-- First half of `CPUScheduler.schedule()`: if there is a current
process whose state is RUNNING and whose `remaining_time` is positive,
requeue it at the tail and set it READY (a RUNNING current process with
`remaining_time ≤ 0` is dropped, its state untouched). -/
def requeuePhase (s : SchedState) : SchedState :=
  match s.current with
  | none => s
  | some r =>
      match s.store.get? r with
      | none => s
      | some p =>
          if p.state = ProcessState.RUNNING ∧ 0 < p.remaining_time then
            { s with
              ready_queue := s.ready_queue ++ [r],
              store := setStateAt s.store r ProcessState.READY }
          else s

/-- Second half of `CPUScheduler.schedule()`: if the ready queue is
non-empty, dequeue its head, make it current and set it RUNNING. -/
def dispatchPhase (s : SchedState) : SchedState :=
  match s.ready_queue with
  | [] => s
  | r :: rest =>
      { s with
        ready_queue := rest,
        current := some r,
        store := setStateAt s.store r ProcessState.RUNNING }

/-- `CPUScheduler.schedule()`: the two statements in sequence. -/
def schedule (s : SchedState) : SchedState :=
  dispatchPhase (requeuePhase s)

/-- One externally invokable scheduler mutation, restricted to adding
PCBs satisfying `P` (use `fun _ => True` for the unrestricted relation):
`add_process` on a fresh PCB object, `add_process` on a PCB object
already in the store, or `schedule`. -/
inductive SchedStepP (P : Process → Prop) : SchedState → SchedState → Prop where
  | addNew : ∀ (s : SchedState) (p : Process), P p →
      SchedStepP P s (addNewProcess s p)
  | addOld : ∀ (s : SchedState) (r : Nat), r < s.store.length →
      SchedStepP P s (addProcess s r)
  | tick : ∀ (s : SchedState), SchedStepP P s (schedule s)

/-- States reachable from a fresh scheduler by add-PCBs-satisfying-`P`
and `schedule` calls. -/
def SchedReachableP (P : Process → Prop) (tq : Int) (s : SchedState) :
    Prop :=
  Relation.ReflTransGen (SchedStepP P) (initSched tq) s

/-- States reachable by arbitrary `add_process` / `schedule` calls. -/
def SchedReachable (tq : Int) (s : SchedState) : Prop :=
  SchedReachableP (fun _ => True) tq s

/-! ### Store lemmas -/

lemma length_updStore (l : List Process) (r : Nat) (f : Process → Process) :
    (updStore l r f).length = l.length := by
  induction l generalizing r with
  | nil => simp [updStore]
  | cons p ps ih =>
      cases r with
      | zero => simp [updStore]
      | succ n => simp [updStore, ih]

lemma get?_updStore (l : List Process) (r : Nat) (f : Process → Process)
    (i : Nat) :
    (updStore l r f).get? i
      = if i = r then (l.get? i).map f else l.get? i := by
  induction l generalizing r i with
  | nil => simp [updStore]
  | cons p ps ih =>
      cases r with
      | zero =>
          cases i with
          | zero => simp [updStore]
          | succ j => simp [updStore]
      | succ n =>
          cases i with
          | zero => simp [updStore]
          | succ j =>
              simp only [updStore, List.get?_cons_succ, ih]
              by_cases h : j = n
          <;> simp [h]

lemma mem_updStore {l : List Process} {r : Nat} {f : Process → Process}
    {x : Process} :
    x ∈ updStore l r f → ∃ y ∈ l, x = y ∨ x = f y := by
  induction l generalizing r with
  | nil =>
      intro hx
      simp [updStore] at hx
  | cons p ps ih =>
      intro hx
      cases r with
      | zero =>
          simp only [updStore, List.mem_cons] at hx
          rcases hx with hx | hx
          · exact ⟨p, List.mem_cons_self _ _, Or.inr hx⟩
          · exact ⟨x, List.mem_cons_of_mem _ hx, Or.inl rfl⟩
      | succ n =>
          simp only [updStore, List.mem_cons] at hx
          rcases hx with hx | hx
          · exact ⟨p, List.mem_cons_self _ _, Or.inl hx⟩
          · obtain ⟨y, hy, hxy⟩ := ih hx
            exact ⟨y, List.mem_cons_of_mem _ hy, hxy⟩

lemma remaining_setStateAt (l : List Process) (r : Nat)
    (st : ProcessState) (i : Nat) :
    ((setStateAt l r st).get? i).map Process.remaining_time
      = (l.get? i).map Process.remaining_time := by
  rw [setStateAt, get?_updStore]
  by_cases h : i = r
  · subst h
    cases hg : l.get? i with
    | none => simp [hg]
    | some p => simp [hg]
  · simp [h]

lemma get?_setStateAt (l : List Process) (r : Nat) (st : ProcessState)
    (i : Nat) :
    (setStateAt l r st).get? i
      = if i = r then (l.get? i).map (fun p => { p with state := st })
        else l.get? i :=
  get?_updStore l r _ i

lemma length_setStateAt (l : List Process) (r : Nat) (st : ProcessState) :
    (setStateAt l r st).length = l.length :=
  length_updStore l r _

/-- Case analysis on the first half of `schedule()`: either nothing
happens, or the RUNNING current process with positive remaining time is
requeued at the tail and set READY. -/
lemma requeuePhase_eq (s : SchedState) :
    requeuePhase s = s
  ∨ ∃ r p, s.current = some r ∧ s.store.get? r = some p
      ∧ p.state = ProcessState.RUNNING ∧ 0 < p.remaining_time
      ∧ requeuePhase s = { s with
          ready_queue := s.ready_queue ++ [r],
          store := setStateAt s.store r ProcessState.READY } := by
  cases hc : s.current with
  | none => exact Or.inl (by simp only [requeuePhase, hc])
  | some r =>
      cases hg : s.store.get? r with
      | none =>
          refine Or.inl ?_
          simp only [requeuePhase, hc]
          rw [hg]
      | some p =>
          by_cases hcond : p.state = ProcessState.RUNNING
              ∧ 0 < p.remaining_time
          · refine Or.inr ⟨r, p, rfl, hg, hcond.1, hcond.2, ?_⟩
            simp only [requeuePhase, hc]
            rw [hg]
            simp only [if_pos hcond]
          · refine Or.inl ?_
            simp only [requeuePhase, hc]
            rw [hg]
            simp only [if_neg hcond]

/-- Case analysis on the second half of `schedule()`: either the ready
queue is empty and nothing happens, or its head becomes the RUNNING
current process. -/
lemma dispatchPhase_eq (s : SchedState) :
    (s.ready_queue = [] ∧ dispatchPhase s = s)
  ∨ ∃ r rest, s.ready_queue = r :: rest
      ∧ dispatchPhase s = { s with
          ready_queue := rest,
          current := some r,
          store := setStateAt s.store r ProcessState.RUNNING } := by
  cases hq : s.ready_queue with
  | nil => exact Or.inl ⟨rfl, by simp [dispatchPhase, hq]⟩
  | cons r rest =>
      exact Or.inr ⟨r, rest, rfl, by simp only [dispatchPhase, hq]⟩

lemma remaining_requeuePhase (s : SchedState) (i : Nat) :
    ((requeuePhase s).store.get? i).map Process.remaining_time
      = (s.store.get? i).map Process.remaining_time := by
  rcases requeuePhase_eq s with h | ⟨r, p, _, _, _, _, h⟩
  · rw [h]
  · rw [h]
    exact remaining_setStateAt s.store r ProcessState.READY i

lemma remaining_dispatchPhase (s : SchedState) (i : Nat) :
    ((dispatchPhase s).store.get? i).map Process.remaining_time
      = (s.store.get? i).map Process.remaining_time := by
  rcases dispatchPhase_eq s with ⟨_, h⟩ | ⟨r, rest, _, h⟩
  · rw [h]
  · rw [h]
    exact remaining_setStateAt s.store r ProcessState.RUNNING i

lemma remaining_schedule (s : SchedState) (i : Nat) :
    ((schedule s).store.get? i).map Process.remaining_time
      = (s.store.get? i).map Process.remaining_time := by
  rw [schedule, remaining_dispatchPhase, remaining_requeuePhase]

/-! ### PCB-field invariants along traces -/

lemma pcbInv_setStateAt {P : Process → Prop}
    (hP : ∀ (p : Process) (st : ProcessState), P p → P { p with state := st })
    {l : List Process} (r : Nat) (st : ProcessState)
    (hl : ∀ p ∈ l, P p) : ∀ p ∈ setStateAt l r st, P p := by
  intro p hp
  obtain ⟨y, hy, hxy⟩ := mem_updStore hp
  rcases hxy with h1 | h1
  · exact h1 ▸ hl y hy
  · exact h1 ▸ hP y st (hl y hy)

lemma pcbInv_step {P : Process → Prop}
    (hP : ∀ (p : Process) (st : ProcessState), P p → P { p with state := st })
    {s t : SchedState} (hstep : SchedStepP P s t)
    (hs : ∀ p ∈ s.store, P p) : ∀ p ∈ t.store, P p := by
  cases hstep with
  | addNew p hp =>
      apply pcbInv_setStateAt hP
      intro q hq
      rcases List.mem_append.1 hq with hq | hq
      · exact hs q hq
      · rw [List.mem_singleton.1 hq]
        exact hp
  | addOld r hr => exact pcbInv_setStateAt hP _ _ hs
  | tick =>
      have h1 : ∀ p ∈ (requeuePhase s).store, P p := by
        rcases requeuePhase_eq s with h | ⟨r, p, _, _, _, _, h⟩
        · rw [h]; exact hs
        · rw [h]; exact pcbInv_setStateAt hP _ _ hs
      rcases dispatchPhase_eq (requeuePhase s) with ⟨_, h⟩ | ⟨r, rest, _, h⟩
      · rw [schedule, h]; exact h1
      · rw [schedule, h]; exact pcbInv_setStateAt hP _ _ h1

lemma pcbInv_reachableP {P : Process → Prop}
    (hP : ∀ (p : Process) (st : ProcessState), P p → P { p with state := st })
    {tq : Int} {s : SchedState} (h : SchedReachableP P tq s) :
    ∀ p ∈ s.store, P p := by
  induction h with
  | refl => simp [initSched]
  | tail hab hstep ih => exact pcbInv_step hP hstep ih

/-! ### Scheduler well-formedness: the RUNNING PCB is the current one -/

/-- Well-formedness of a scheduler state: every reference held by
`current` or the ready queue is in range, and any RUNNING PCB in the
store is the current one. -/
structure SchedWF (s : SchedState) : Prop where
  cur_lt : ∀ r, s.current = some r → r < s.store.length
  queue_lt : ∀ r ∈ s.ready_queue, r < s.store.length
  run_cur : ∀ r p, s.store.get? r = some p →
      p.state = ProcessState.RUNNING → s.current = some r

lemma schedWF_addProcess {s : SchedState} {r : Nat}
    (hr : r < s.store.length) (h : SchedWF s) : SchedWF (addProcess s r) := by
  refine ⟨?_, ?_, ?_⟩
  · intro r2 hc
    simp only [addProcess] at hc
    simpa [addProcess, length_setStateAt] using h.cur_lt r2 hc
  · intro r2 hq
    simp only [addProcess, List.mem_append, List.mem_singleton] at hq
    simp only [addProcess, length_setStateAt]
    rcases hq with hq | hq
    · exact h.queue_lt r2 hq
    · exact hq ▸ hr
  · intro r2 p hp hrun
    simp only [addProcess] at hp ⊢
    rw [get?_setStateAt] at hp
    by_cases h2 : r2 = r
    · rw [if_pos h2] at hp
      cases hg : s.store.get? r2 with
      | none => rw [hg] at hp; exact Option.noConfusion hp
      | some q =>
          rw [hg] at hp
          simp only [Option.map_some'] at hp
          injection hp with hp2
          rw [← hp2] at hrun
          exact absurd hrun (by simp)
    · rw [if_neg h2] at hp
      exact h.run_cur r2 p hp hrun

lemma schedWF_addNewProcess {s : SchedState} (p : Process)
    (h : SchedWF s) : SchedWF (addNewProcess s p) := by
  unfold addNewProcess
  refine ⟨?_, ?_, ?_⟩
  · intro r2 hc
    simp only [addProcess] at hc
    have := h.cur_lt r2 hc
    simp only [addProcess, length_setStateAt, List.length_append,
      List.length_singleton]
    omega
  · intro r2 hq
    simp only [addProcess, List.mem_append, List.mem_singleton] at hq
    simp only [addProcess, length_setStateAt, List.length_append,
      List.length_singleton]
    rcases hq with hq | hq
    · have := h.queue_lt r2 hq
      omega
    · omega
  · intro r2 q hq hrun
    simp only [addProcess] at hq ⊢
    rw [get?_setStateAt] at hq
    by_cases h2 : r2 = s.store.length
    · rw [if_pos h2] at hq
      cases hg : (s.store ++ [p]).get? r2 with
      | none => rw [hg] at hq; exact Option.noConfusion hq
      | some q2 =>
          rw [hg] at hq
          simp only [Option.map_some'] at hq
          injection hq with hq2b
          rw [← hq2b] at hrun
          exact absurd hrun (by simp)
    · rw [if_neg h2] at hq
      have hlt : r2 < s.store.length := by
        have hne : (s.store ++ [p]).get? r2 ≠ none := by
          rw [hq]; exact fun hcontra => Option.noConfusion hcontra
        have := List.get?_eq_none.not.1 hne
        simp only [List.length_append, List.length_singleton] at this
        omega
      rw [List.get?_append hlt] at hq
      exact h.run_cur r2 q hq hrun

/-- After the first half of `schedule()` on a well-formed state whose
PCBs all have positive remaining time, no PCB in the store is RUNNING. -/
lemma noRunning_requeuePhase {s : SchedState} (h : SchedWF s)
    (hpos : ∀ p ∈ s.store, 0 < p.remaining_time) :
    ∀ i p, (requeuePhase s).store.get? i = some p →
      p.state ≠ ProcessState.RUNNING := by
  intro i p hp hrunp
  cases hc : s.current with
  | none =>
      have heq : requeuePhase s = s := by simp only [requeuePhase, hc]
      rw [heq] at hp
      have hcur := h.run_cur i p hp hrunp
      rw [hc] at hcur
      exact Option.noConfusion hcur
  | some r =>
      cases hg : s.store.get? r with
      | none =>
          have heq : requeuePhase s = s := by
            simp only [requeuePhase, hc]
            rw [hg]
          rw [heq] at hp
          have hcur := h.run_cur i p hp hrunp
          rw [hc] at hcur
          injection hcur with h2
          subst h2
          rw [hp] at hg
          exact Option.noConfusion hg
      | some q =>
          by_cases hcond : q.state = ProcessState.RUNNING
              ∧ 0 < q.remaining_time
          · have heq : requeuePhase s = { s with
                ready_queue := s.ready_queue ++ [r],
                store := setStateAt s.store r ProcessState.READY } := by
              simp only [requeuePhase, hc]
              rw [hg]
              simp only [if_pos hcond]
            rw [heq] at hp
            simp only at hp
            rw [get?_setStateAt] at hp
            by_cases h2 : i = r
            · rw [if_pos h2, h2, hg] at hp
              simp only [Option.map_some'] at hp
              injection hp with hp2
              rw [← hp2] at hrunp
              exact absurd hrunp (by simp)
            · rw [if_neg h2] at hp
              have hcur := h.run_cur i p hp hrunp
              rw [hc] at hcur
              injection hcur with h3
              exact h2 h3.symm
          · have heq : requeuePhase s = s := by
              simp only [requeuePhase, hc]
              rw [hg]
              simp only [if_neg hcond]
            rw [heq] at hp
            have hcur := h.run_cur i p hp hrunp
            rw [hc] at hcur
            injection hcur with h2
            subst h2
            rw [hp] at hg
            injection hg with h3
            exact hcond ⟨h3 ▸ hrunp, h3 ▸ hpos p (List.get?_mem hp)⟩

lemma schedWF_schedule {s : SchedState} (h : SchedWF s)
    (hpos : ∀ p ∈ s.store, 0 < p.remaining_time) :
    SchedWF (schedule s) := by
  have hnr := noRunning_requeuePhase h hpos
  -- bounds facts about the intermediate state
  have hmid : (∀ r2, (requeuePhase s).current = some r2 →
        r2 < (requeuePhase s).store.length)
      ∧ (∀ r2 ∈ (requeuePhase s).ready_queue,
        r2 < (requeuePhase s).store.length) := by
    rcases requeuePhase_eq s with heq | ⟨r, q, hc, hg, hrun, hposr, heq⟩
    · rw [heq]; exact ⟨h.cur_lt, h.queue_lt⟩
    · rw [heq]
      constructor
      · intro r2 hc2
        simp only at hc2
        simpa [length_setStateAt] using h.cur_lt r2 hc2
      · intro r2 hq2
        simp only [List.mem_append, List.mem_singleton] at hq2
        simp only [length_setStateAt]
        rcases hq2 with hq2 | hq2
        · exact h.queue_lt r2 hq2
        · exact hq2 ▸ h.cur_lt r hc
  rcases dispatchPhase_eq (requeuePhase s) with ⟨hq0, heq2⟩ | ⟨r, rest, hq0, heq2⟩
  · rw [schedule, heq2]
    refine ⟨hmid.1, hmid.2, ?_⟩
    intro r2 p hp hrunp
    exact absurd hrunp (hnr r2 p hp)
  · rw [schedule, heq2]
    refine ⟨?_, ?_, ?_⟩
    · intro r2 hc2
      simp only at hc2
      injection hc2 with hc3
      subst hc3
      have hmem : r ∈ (requeuePhase s).ready_queue := by
        rw [hq0]
        exact List.mem_cons_self _ _
      simpa [length_setStateAt] using hmid.2 r hmem
    · intro r2 hq2
      simp only at hq2
      have : r2 ∈ (requeuePhase s).ready_queue := by
        rw [hq0]; exact List.mem_cons_of_mem _ hq2
      simpa [length_setStateAt] using hmid.2 r2 this
    · intro r2 p hp hrunp
      simp only at hp ⊢
      rw [get?_setStateAt] at hp
      by_cases h2 : r2 = r
      · rw [h2]
      · rw [if_neg h2] at hp
        exact absurd hrunp (hnr r2 p hp)

lemma schedWF_reachable_pos {tq : Int} {s : SchedState}
    (h : SchedReachableP (fun p => 0 < p.remaining_time) tq s) :
    SchedWF s := by
  have hboth : SchedWF s ∧ ∀ p ∈ s.store, 0 < p.remaining_time := by
    induction h with
    | refl =>
        refine ⟨⟨?_, ?_, ?_⟩, ?_⟩ <;> intro r <;> simp [initSched]
    | tail hab hstep ih =>
        refine ⟨?_, pcbInv_step (fun p st hp => hp) hstep ih.2⟩
        cases hstep with
        | addNew p hp => exact schedWF_addNewProcess p ih.1
        | addOld r hr => exact schedWF_addProcess hr ih.1
        | tick => exact schedWF_schedule ih.1 ih.2
  exact hboth.1

/-- Number of PCB objects in the store whose state is RUNNING. -/
def runningCount (s : SchedState) : Nat :=
  (s.store.filter (fun p => decide (p.state = ProcessState.RUNNING))).length

lemma filter_running_le_one (l : List Process)
    (h : ∀ i j pi pj, l.get? i = some pi → l.get? j = some pj →
        pi.state = ProcessState.RUNNING → pj.state = ProcessState.RUNNING →
        i = j) :
    (l.filter (fun p => decide (p.state = ProcessState.RUNNING))).length
      ≤ 1 := by
  induction l with
  | nil => simp
  | cons hd tl ih =>
      by_cases hh : hd.state = ProcessState.RUNNING
      · have htl : tl.filter
            (fun p => decide (p.state = ProcessState.RUNNING)) = [] := by
          rw [List.filter_eq_nil]
          intro p hp
          simp only [decide_eq_true_eq]
          intro hrun
          obtain ⟨j, hj⟩ := List.get?_of_mem hp
          have h0 := h 0 (j + 1) hd p rfl (by simpa using hj) hh hrun
          exact absurd h0.symm (Nat.succ_ne_zero j)
        simp [List.filter_cons, hh, htl]
      · have h2 : ∀ i j pi pj, tl.get? i = some pi → tl.get? j = some pj →
            pi.state = ProcessState.RUNNING →
            pj.state = ProcessState.RUNNING → i = j := by
          intro i j pi pj hi hj h1 h2
          have := h (i + 1) (j + 1) pi pj (by simpa using hi)
            (by simpa using hj) h1 h2
          omega
        simpa [List.filter_cons, hh] using ih h2

/-! ### Claim C1: what one schedule() call does to remaining_time -/

/-- A PCB as the simulator builds them (positive remaining time). -/
def pcbA : Process :=
  ⟨1, "A", 1, 10, 5, ProcessState.NEW, 5, true⟩

/-- Reachable scheduler state with `pcbA` RUNNING as the current process
(remaining_time 5, time_quantum 2) and an empty ready queue. -/
def cexC1 : SchedState :=
  schedule (addNewProcess (initSched 2) pcbA)

/-- C1 is refuted by the code: `schedule()` never changes any PCB's
`remaining_time` (first conjunct, for every state and reference), so a
RUNNING process with remaining_time 5 and time_quantum 2 still has
remaining_time 5 — not 5 - min(2,5) = 3 — after a tick, and is RUNNING
again rather than READY or TERMINATED; `CPUScheduler` holds no reference
to any `MemoryManager`, so no deallocation can be triggered. -/
theorem schedule_never_decrements :
    (∀ (s : SchedState) (i : Nat),
        ((schedule s).store.get? i).map Process.remaining_time
          = (s.store.get? i).map Process.remaining_time)
  ∧ SchedReachable 2 cexC1
  ∧ cexC1.time_quantum = 2
  ∧ cexC1.current = some 0
  ∧ (cexC1.store.get? 0).map Process.state = some ProcessState.RUNNING
  ∧ (cexC1.store.get? 0).map Process.remaining_time = some 5
  ∧ ((schedule cexC1).store.get? 0).map Process.remaining_time = some 5
  ∧ ((schedule cexC1).store.get? 0).map Process.state
      = some ProcessState.RUNNING := by
  refine ⟨remaining_schedule, ?_, rfl, rfl, rfl, rfl, rfl, rfl⟩
  exact Relation.ReflTransGen.tail
    (Relation.ReflTransGen.tail Relation.ReflTransGen.refl
      (SchedStepP.addNew _ pcbA trivial))
    (SchedStepP.tick _)

/-! ### Claim C2: at most one RUNNING PCB -/

/-- A PCB whose remaining_time is already 0 when it is added. -/
def pcbZ : Process :=
  ⟨3, "Z", 1, 10, 0, ProcessState.NEW, 0, true⟩

/-- A second, ordinary PCB. -/
def pcbB : Process :=
  ⟨4, "B", 1, 10, 5, ProcessState.NEW, 5, true⟩

/-- Add a zero-remaining-time PCB, schedule it, add a second PCB,
schedule again: the first stays RUNNING (it is dropped, not requeued and
not relabelled) while the second also becomes RUNNING. -/
def cexC2 : SchedState :=
  schedule (addNewProcess (schedule (addNewProcess (initSched 2) pcbZ)) pcbB)

/-- Counterexample to C2 as stated: a reachable state, produced by a
`schedule` call, in which two distinct PCB objects are both RUNNING. -/
theorem two_running_after_schedule :
    SchedReachable 2 cexC2
  ∧ (cexC2.store.get? 0).map Process.state = some ProcessState.RUNNING
  ∧ (cexC2.store.get? 1).map Process.state = some ProcessState.RUNNING
  ∧ runningCount cexC2 = 2 := by
  refine ⟨?_, rfl, rfl, rfl⟩
  exact Relation.ReflTransGen.tail
    (Relation.ReflTransGen.tail
      (Relation.ReflTransGen.tail
        (Relation.ReflTransGen.tail Relation.ReflTransGen.refl
          (SchedStepP.addNew _ pcbZ trivial))
        (SchedStepP.tick _))
      (SchedStepP.addNew _ pcbB trivial))
    (SchedStepP.tick _)

/-- C2 (amended): in every scheduler state reachable by `add_process` /
`schedule` calls in which every added PCB has positive `remaining_time`
(as all simulator-built PCBs do — `schedule` itself never changes
`remaining_time`), at most one PCB in the store is RUNNING after any
call sequence, in particular after any `schedule` call. -/
theorem at_most_one_running (tq : Int) (s : SchedState)
    (h : SchedReachableP (fun p => 0 < p.remaining_time) tq s) :
    runningCount s ≤ 1 := by
  have hwf := schedWF_reachable_pos h
  apply filter_running_le_one
  intro i j pi pj hi hj h1 h2
  have hci := hwf.run_cur i pi hi h1
  have hcj := hwf.run_cur j pj hj h2
  rw [hci] at hcj
  injection hcj

/-- Witness for C2 (amended): after adding one positive-remaining PCB
and scheduling it, the RUNNING count is (at most) one. -/
theorem at_most_one_running_witness :
    runningCount (schedule (addNewProcess (initSched 2) pcbA)) ≤ 1 :=
  at_most_one_running 2 _
    (Relation.ReflTransGen.tail
      (Relation.ReflTransGen.tail Relation.ReflTransGen.refl
        (SchedStepP.addNew _ pcbA (by decide)))
      (SchedStepP.tick _))

/-! ### Claim C7: add_process has no duplicate check -/

/-- State obtained by adding the same PCB object twice. -/
def cexC7 : SchedState :=
  addProcess (addNewProcess (initSched 2) pcbA) 0

/-- Counterexample to C7 as stated: `add_process` performs no presence
check, so adding the same PCB object twice leaves two occurrences of its
reference in the ready queue, not one. -/
theorem add_process_no_dedup :
    SchedReachable 2 cexC7
  ∧ cexC7.ready_queue = [0, 0]
  ∧ cexC7.ready_queue.count 0 = 2
  ∧ cexC7.ready_queue.count 0 ≠ 1 := by
  refine ⟨?_, rfl, rfl, by decide⟩
  exact Relation.ReflTransGen.tail
    (Relation.ReflTransGen.tail Relation.ReflTransGen.refl
      (SchedStepP.addNew _ pcbA trivial))
    (SchedStepP.addOld _ 0 (by decide))

/-- C7 (amended): `add_process(p)` unconditionally appends `p` to the
tail of the ready queue (and of `processes`) and sets `p`'s state to
READY, leaving every other PCB and `current_process` untouched; there is
no idempotence — re-adding an already-present PCB enqueues it again. -/
theorem add_process_appends (s : SchedState) (r : Nat) :
    (addProcess s r).ready_queue = s.ready_queue ++ [r]
  ∧ (addProcess s r).processes = s.processes ++ [r]
  ∧ (addProcess s r).current = s.current
  ∧ (∀ p, s.store.get? r = some p →
      (addProcess s r).store.get? r
        = some { p with state := ProcessState.READY })
  ∧ (∀ i, i ≠ r → (addProcess s r).store.get? i = s.store.get? i) := by
  refine ⟨rfl, rfl, rfl, ?_, ?_⟩
  · intro p hp
    show (setStateAt s.store r ProcessState.READY).get? r = _
    rw [get?_setStateAt, if_pos rfl, hp, Option.map_some']
  · intro i hi
    simp only [addProcess, get?_setStateAt, if_neg hi]

/-- Witness for C7 (amended) on a concrete one-PCB scheduler. -/
theorem add_process_appends_witness :
    (addProcess (addNewProcess (initSched 2) pcbA) 0).store.get? 0
      = some { pcbA with state := ProcessState.READY }
  ∧ (addProcess (addNewProcess (initSched 2) pcbA) 0).store.get? 1
      = (addNewProcess (initSched 2) pcbA).store.get? 1 :=
  ⟨(add_process_appends (addNewProcess (initSched 2) pcbA) 0).2.2.2.1
      { pcbA with state := ProcessState.READY } rfl,
   (add_process_appends (addNewProcess (initSched 2) pcbA) 0).2.2.2.2
      1 (by decide)⟩

/-! ### Claim C8: RUNNING implies memory_allocated -/

/-- A PCB with `memory_allocated = false`. -/
def pcbNoMem : Process :=
  ⟨5, "N", 1, 10, 5, ProcessState.NEW, 5, false⟩

/-- Adding a PCB with no memory and scheduling makes it RUNNING. -/
def cexC8 : SchedState :=
  schedule (addNewProcess (initSched 2) pcbNoMem)

/-- Counterexample to C8 as stated: the scheduler never inspects or sets
`memory_allocated`, so a PCB added with `memory_allocated = false`
reaches the RUNNING state with its flag still false. -/
theorem running_without_memory :
    SchedReachable 2 cexC8
  ∧ (cexC8.store.get? 0).map Process.state = some ProcessState.RUNNING
  ∧ (cexC8.store.get? 0).map Process.memory_allocated = some false := by
  refine ⟨?_, rfl, rfl⟩
  exact Relation.ReflTransGen.tail
    (Relation.ReflTransGen.tail Relation.ReflTransGen.refl
      (SchedStepP.addNew _ pcbNoMem trivial))
    (SchedStepP.tick _)

/-- C8 (amended): scheduler operations never modify `memory_allocated`,
so in every state reachable by sequences in which every added PCB has
`memory_allocated = true` (as the simulator constructs them), every
RUNNING PCB has `memory_allocated = true`. -/
theorem running_implies_memory_allocated (tq : Int) (s : SchedState)
    (h : SchedReachableP (fun p => p.memory_allocated = true) tq s) :
    ∀ p ∈ s.store, p.state = ProcessState.RUNNING →
      p.memory_allocated = true := by
  have hinv : ∀ p ∈ s.store, p.memory_allocated = true :=
    pcbInv_reachableP (fun p st hp => hp) h
  exact fun p hp _ => hinv p hp

/-- Witness for C8 (amended): the RUNNING PCB of a concrete reachable
state has its memory flag set. -/
theorem running_implies_memory_allocated_witness :
    ({ pcbA with state := ProcessState.RUNNING } : Process).memory_allocated
      = true :=
  running_implies_memory_allocated 2
    (schedule (addNewProcess (initSched 2) pcbA))
    (Relation.ReflTransGen.tail
      (Relation.ReflTransGen.tail Relation.ReflTransGen.refl
        (SchedStepP.addNew _ pcbA (by decide)))
      (SchedStepP.tick _))
    { pcbA with state := ProcessState.RUNNING }
    (by decide) rfl

/-! ### Claim C9: round-robin fairness under perpetual readiness -/

/-- A "perpetually ready" round-robin configuration: `r` is the current
reference, its PCB is RUNNING with positive remaining time, and every
queued reference is in range with positive remaining time (in this code
`remaining_time` never changes, so such processes never terminate). -/
def RRState (s : SchedState) (r : Nat) : Prop :=
  s.current = some r
  ∧ r < s.store.length
  ∧ (∀ p, s.store.get? r = some p →
      p.state = ProcessState.RUNNING ∧ 0 < p.remaining_time)
  ∧ (∀ i ∈ s.ready_queue, i < s.store.length
      ∧ ∀ p, s.store.get? i = some p → 0 < p.remaining_time)

lemma get?_isSome_of_lt {l : List Process} {r : Nat} (h : r < l.length) :
    ∃ p, l.get? r = some p := by
  cases hg : l.get? r with
  | none =>
      rw [List.get?_eq_none] at hg
      omega
  | some p => exact ⟨p, rfl⟩

lemma schedule_rotate_cons {s : SchedState} {r q0 : Nat} {rest : List Nat}
    (h : RRState s r) (hq : s.ready_queue = q0 :: rest) :
    (schedule s).ready_queue = rest ++ [r]
  ∧ (schedule s).current = some q0
  ∧ (schedule s).store.length = s.store.length
  ∧ RRState (schedule s) q0 := by
  obtain ⟨hc, hrlt, hrun, hqall⟩ := h
  obtain ⟨p, hg⟩ := get?_isSome_of_lt hrlt
  have hcond := hrun p hg
  -- the requeue phase fires
  have heq1 : requeuePhase s = { s with
      ready_queue := s.ready_queue ++ [r],
      store := setStateAt s.store r ProcessState.READY } := by
    simp only [requeuePhase, hc]
    rw [hg]
    simp only [if_pos hcond]
  -- the dispatch phase pops q0
  have heq2 : schedule s = { s with
      ready_queue := rest ++ [r],
      current := some q0,
      store := setStateAt (setStateAt s.store r ProcessState.READY) q0
        ProcessState.RUNNING } := by
    rw [schedule, heq1]
    simp only [dispatchPhase, hq]
    rfl
  rw [heq2]
  have hq0mem : q0 ∈ s.ready_queue := by
    rw [hq]
    exact List.mem_cons_self _ _
  have hq0 := hqall q0 hq0mem
  refine ⟨rfl, rfl, by simp [length_setStateAt], rfl, ?_, ?_, ?_⟩
  · simpa [length_setStateAt] using hq0.1
  · intro p2 hp2
    obtain ⟨x, hx⟩ : ∃ x, (setStateAt s.store r ProcessState.READY).get? q0
        = some x :=
      get?_isSome_of_lt (by simpa [length_setStateAt] using hq0.1)
    rw [get?_setStateAt, if_pos rfl, hx, Option.map_some'] at hp2
    injection hp2 with hp3
    obtain ⟨pq, hpq⟩ := get?_isSome_of_lt hq0.1
    have hxrem : x.remaining_time = pq.remaining_time := by
      have h1 : ((setStateAt s.store r ProcessState.READY).get? q0).map
            Process.remaining_time
          = (s.store.get? q0).map Process.remaining_time :=
        remaining_setStateAt _ _ _ _
      rw [hx, hpq] at h1
      simp only [Option.map_some'] at h1
      exact Option.some.inj h1
    constructor
    · rw [← hp3]
    · rw [← hp3]
      show 0 < x.remaining_time
      rw [hxrem]
      exact hq0.2 pq hpq
  · intro i hi
    have himem : i = r ∨ i ∈ s.ready_queue := by
      rcases List.mem_append.1 hi with hi | hi
      · exact Or.inr (by rw [hq]; exact List.mem_cons_of_mem _ hi)
      · exact Or.inl (List.mem_singleton.1 hi)
    have hilt : i < s.store.length := by
      rcases himem with hi2 | hi2
      · exact hi2 ▸ hrlt
      · exact (hqall i hi2).1
    refine ⟨by simpa [length_setStateAt] using hilt, ?_⟩
    intro p2 hp2
    obtain ⟨pi, hpi⟩ := get?_isSome_of_lt hilt
    have hrem2 : p2.remaining_time = pi.remaining_time := by
      have h1 : ((setStateAt (setStateAt s.store r ProcessState.READY) q0
            ProcessState.RUNNING).get? i).map Process.remaining_time
          = (s.store.get? i).map Process.remaining_time := by
        rw [remaining_setStateAt, remaining_setStateAt]
      rw [hp2, hpi] at h1
      simp only [Option.map_some'] at h1
      exact Option.some.inj h1
    rw [hrem2]
    rcases himem with hi2 | hi2
    · subst hi2
      rw [hg] at hpi
      rw [← Option.some.inj hpi]
      exact hcond.2
    · exact (hqall i hi2).2 pi hpi

lemma schedule_rotate_nil {s : SchedState} {r : Nat}
    (h : RRState s r) (hq : s.ready_queue = []) :
    (schedule s).current = some r := by
  obtain ⟨hc, hrlt, hrun, hqall⟩ := h
  obtain ⟨p, hg⟩ := get?_isSome_of_lt hrlt
  have hcond := hrun p hg
  have heq1 : requeuePhase s = { s with
      ready_queue := s.ready_queue ++ [r],
      store := setStateAt s.store r ProcessState.READY } := by
    simp only [requeuePhase, hc]
    rw [hg]
    simp only [if_pos hcond]
  rw [schedule, heq1]
  simp [dispatchPhase, hq]

/-- After `k + 1` ticks of a perpetually-ready configuration
(`k` at most the queue length), the process on the CPU is the `k`-th
element of the queue-then-current cycle: strict FIFO order. -/
lemma schedule_iterate (k : Nat) :
    ∀ (s : SchedState) (r : Nat), RRState s r →
      k ≤ s.ready_queue.length →
      (schedule^[k + 1] s).current = (s.ready_queue ++ [r]).get? k := by
  induction k with
  | zero =>
      intro s r h hk
      rw [Function.iterate_one]
      cases hq : s.ready_queue with
      | nil => simpa [hq] using schedule_rotate_nil h hq
      | cons q0 rest => simpa [hq] using (schedule_rotate_cons h hq).2.1
  | succ k ih =>
      intro s r h hk
      cases hq : s.ready_queue with
      | nil =>
          rw [hq] at hk
          simp at hk
      | cons q0 rest =>
          obtain ⟨hq2, hc2, hlen2, hrr⟩ := schedule_rotate_cons h hq
          rw [hq] at hk
          simp only [List.length_cons] at hk
          have hk2 : k ≤ (schedule s).ready_queue.length := by
            rw [hq2]
            simp only [List.length_append, List.length_singleton]
            omega
          have hrec := ih (schedule s) q0 hrr hk2
          rw [Function.iterate_succ_apply]
          rw [hrec, hq2]
          rw [List.cons_append, List.get?_cons_succ]
          exact List.get?_append (by
            simp only [List.length_append, List.length_singleton]
            omega)

/-- C9: with N perpetually-ready processes — the current one plus the
N-1 queued ones, all with positive remaining time, which in this code
never changes — the next N-1 `schedule()` ticks hand the CPU to the
queued processes in strict FIFO order (no later-queued process overtakes
an earlier one), none of those ticks selects `r`, and the N-th tick puts
`r` back on the CPU.  Each tick is one turn of at most `time_quantum`
execution units, so `r` waits at most `time_quantum * (N-1)` units
between consecutive turns. -/
theorem round_robin_fair (s : SchedState) (r : Nat) (h : RRState s r)
    (hnotin : r ∉ s.ready_queue) :
    (schedule^[s.ready_queue.length + 1] s).current = some r
  ∧ (∀ k, 1 ≤ k → k ≤ s.ready_queue.length →
      (schedule^[k] s).current = s.ready_queue.get? (k - 1))
  ∧ (∀ k, 1 ≤ k → k ≤ s.ready_queue.length →
      (schedule^[k] s).current ≠ some r) := by
  have hmain : ∀ k, k ≤ s.ready_queue.length →
      (schedule^[k + 1] s).current = (s.ready_queue ++ [r]).get? k :=
    fun k hk => schedule_iterate k s r h hk
  have hfifo : ∀ k, 1 ≤ k → k ≤ s.ready_queue.length →
      (schedule^[k] s).current = s.ready_queue.get? (k - 1) := by
    intro k h1 h2
    obtain ⟨k2, rfl⟩ : ∃ k2, k = k2 + 1 := ⟨k - 1, by omega⟩
    rw [hmain k2 (by omega)]
    simp only [Nat.add_sub_cancel]
    exact List.get?_append (by omega)
  refine ⟨?_, hfifo, ?_⟩
  · rw [hmain s.ready_queue.length (le_refl _)]
    exact List.get?_concat_length _ _
  · intro k h1 h2 hcontra
    rw [hfifo k h1 h2] at hcontra
    exact hnotin (List.get?_mem hcontra)

/-- Three perpetually-ready PCBs: A on the CPU, B and C queued. -/
def wRR : SchedState :=
  ⟨[⟨1, "A", 1, 10, 4, ProcessState.RUNNING, 2, true⟩,
    ⟨2, "B", 1, 10, 4, ProcessState.READY, 3, true⟩,
    ⟨3, "C", 1, 10, 4, ProcessState.READY, 4, true⟩],
   [1, 2], 2, some 0, [0, 1, 2]⟩

/-- Witness for C9 with N = 3: process 0 is back on the CPU after
exactly 3 ticks, and is off the CPU on ticks 1 and 2 (which run the
queued processes 1 and 2 in FIFO order). -/
theorem round_robin_fair_witness :
    (schedule^[3] wRR).current = some 0
  ∧ (schedule^[1] wRR).current = some 1
  ∧ (schedule^[2] wRR).current = some 2
  ∧ (schedule^[1] wRR).current ≠ some 0
  ∧ (schedule^[2] wRR).current ≠ some 0 := by
  have h : RRState wRR 0 := by
    refine ⟨rfl, by decide, ?_, ?_⟩
    · intro p hp
      injection hp with hp2
      rw [← hp2]
      exact ⟨rfl, by decide⟩
    · intro i hi
      have : i = 1 ∨ i = 2 := by
        simpa [wRR] using hi
      rcases this with hi2 | hi2 <;> subst hi2
      · refine ⟨by decide, ?_⟩
        intro p hp
        injection hp with hp2
        rw [← hp2]
        decide
      · refine ⟨by decide, ?_⟩
        intro p hp
        injection hp with hp2
        rw [← hp2]
        decide
  have hnotin : 0 ∉ wRR.ready_queue := by decide
  have hmain := round_robin_fair wRR 0 h hnotin
  refine ⟨hmain.1, ?_, ?_, hmain.2.2 1 (by decide) (by decide),
    hmain.2.2 2 (by decide) (by decide)⟩
  · rw [hmain.2.1 1 (by decide) (by decide)]
    rfl
  · rw [hmain.2.1 2 (by decide) (by decide)]
    rfl

end OsPractice
